import Mathlib

/-!
Verification of the turn-based tool-orchestration engine of the clinic intake
assistant: the schema harmonizer (`cleanSchema`), the tool-calling loop, the
dispatch boundary, the signal extractor for the triage level, and the local
patient lookup/registration handlers.

JavaScript/TypeScript values handled by the code are JSON-like; they are
embedded as the nested inductive `Json` below.  JavaScript machine details
deliberately out of scope of this embedding: numbers are embedded as `Int`
(no claim depends on float behaviour), the `in` operator is modelled on own
properties only (no prototype chain), and thrown exceptions are modelled by
`Option`/`none` results.
-/

namespace Uhm

/-- A JSON-like JavaScript value: the data manipulated by `cleanSchema` and the
tool argument bags. -/
inductive Json where
  | null
  | bool (b : Bool)
  | num (n : Int)
  | str (s : String)
  | arr (elems : List Json)
  | obj (fields : List (String × Json))
deriving Repr, Inhabited

/-- JavaScript truthiness of a JSON-like value (`undefined` is represented by
absence, i.e. `Option.none`, at use sites). -/
def truthy : Json → Bool
  | .null => false
  | .bool b => b
  | .num n => n != 0
  | .str s => s != ""
  | .arr _ => true
  | .obj _ => true

/-- `Object.keys(v).length` of a JSON-like value: object fields, array
indices, string character indices; primitives have no own keys. -/
def keyCount : Json → Nat
  | .obj fields => fields.length
  | .arr xs => xs.length
  | .str s => s.length
  | _ => 0

/-- Property read `fields[k]` on an object given as its entry list
(first entry wins, as `Object.entries` of a real object has unique keys). -/
def lookupField : List (String × Json) → String → Option Json
  | [], _ => none
  | p :: rest, k => if p.1 = k then some p.2 else lookupField rest k

/-- `delete obj[k]` on the entry list. -/
def eraseKey : List (String × Json) → String → List (String × Json)
  | [], _ => []
  | p :: rest, k => if p.1 = k then eraseKey rest k else p :: eraseKey rest k

/-- `obj[k] = v` on the entry list of an existing key `k`. -/
def setKey : List (String × Json) → String → Json → List (String × Json)
  | [], _, _ => []
  | p :: rest, k, v => (if p.1 = k then (p.1, v) else p) :: setKey rest k v

mutual
/-- JavaScript `String(v)` coercion, as performed on the callback argument of
`required.filter(key => key in cleaned.properties)`. -/
def jsKeyString : Json → String
  | .null => "null"
  | .bool true => "true"
  | .bool false => "false"
  | .num n => toString n
  | .str s => s
  | .arr xs => jsArrString xs
  | .obj _ => "[object Object]"

/-- `Array.prototype.toString`: elements coerced and comma-joined, with `null`
elements rendered empty. -/
def jsArrString : List Json → String
  | [] => ""
  | x :: xs =>
    (match x with
     | .null => ""
     | .bool b => jsKeyString (.bool b)
     | .num n => jsKeyString (.num n)
     | .str s => jsKeyString (.str s)
     | .arr ys => jsKeyString (.arr ys)
     | .obj fs => jsKeyString (.obj fs)) ++
    (if xs.isEmpty then "" else "," ++ jsArrString xs)
end

/-- The JavaScript `key in container` test (own properties; the prototype
chain carries no schema data and is not modelled).  `none` models the
`TypeError` thrown when `container` is a primitive. -/
def inOp (key : String) (container : Json) : Option Bool :=
  match container with
  | .obj fields => some (fields.any (fun p => p.1 == key))
  | .arr xs =>
    some ((match key.toNat? with
           | some n => decide (n < xs.length) && (toString n == key)
           | none => false) || key == "length")
  | _ => none

/-- The allow-list of structural schema keys retained by `cleanSchema`. -/
def allowedKeys : List String :=
  ["type", "properties", "required", "description", "enum", "items", "title",
   "default", "format", "minimum", "maximum", "minLength", "maxLength",
   "pattern"]

/-- `cleaned.required.filter(key => key in cleaned.properties)`; `none` models
the `TypeError` raised by `in` on a primitive `properties` value. -/
def filterReq (reqs : List Json) (props : Json) : Option (List Json) :=
  match reqs with
  | [] => some []
  | r :: rest =>
    match inOp (jsKeyString r) props with
    | none => none
    | some b =>
      match filterReq rest props with
      | none => none
      | some rest' => some (if b then r :: rest' else rest')

/-- The `required` fix-up block of `cleanSchema`: drop `required` when
`properties` is missing, falsy, or empty; otherwise filter it down to keys
present in `properties`, dropping it entirely when the filter empties it.
`none` models the `TypeError` raised when `required` is not an array (or when
the `in` test hits a primitive `properties`). -/
def fixRequired (cleaned : List (String × Json)) : Option (List (String × Json)) :=
  match lookupField cleaned "required" with
  | none => some cleaned
  | some reqVal =>
    match lookupField cleaned "properties" with
    | none => some (eraseKey cleaned "required")
    | some props =>
      if !truthy props || keyCount props == 0 then
        some (eraseKey cleaned "required")
      else
        match reqVal with
        | .arr reqs =>
          match filterReq reqs props with
          | none => none
          | some reqs' =>
            if reqs'.isEmpty then some (eraseKey cleaned "required")
            else some (setKey cleaned "required" (.arr reqs'))
        | _ => none

mutual
/-- The schema harmonizer `cleanSchema` (identical copies in both API routes):
map over arrays, allow-list-filter and recurse on object entries, then apply
the `required` fix-up.  Primitives pass through.  `none` models a thrown
`TypeError`. -/
def cleanSchema : Json → Option Json
  | .arr xs =>
    match cleanList xs with
    | some ys => some (.arr ys)
    | none => none
  | .obj fields =>
    match cleanFields fields with
    | some cleaned =>
      match fixRequired cleaned with
      | some cleaned' => some (.obj cleaned')
      | none => none
    | none => none
  | j => some j

/-- `obj.map(cleanSchema)` over an array, propagating a throw. -/
def cleanList : List Json → Option (List Json)
  | [] => some []
  | x :: xs =>
    match cleanSchema x with
    | some y =>
      match cleanList xs with
      | some ys => some (y :: ys)
      | none => none
    | none => none

/-- The `Object.entries` loop of `cleanSchema`: keep allow-listed keys and
recurse into their values, propagating a throw. -/
def cleanFields : List (String × Json) → Option (List (String × Json))
  | [] => some []
  | (k, v) :: rest =>
    if allowedKeys.contains k then
      match cleanSchema v with
      | some v' =>
        match cleanFields rest with
        | some rest' => some ((k, v') :: rest')
        | none => none
      | none => none
    else cleanFields rest
end

/-- The harmonized-`required` invariant of one object's entry list: either no
`required` entry, or `required` is a non-empty array whose every element names
(after JavaScript string coercion) an own key of a present, truthy, non-empty
`properties` value. -/
def reqInv (fields : List (String × Json)) : Bool :=
  match lookupField fields "required" with
  | none => true
  | some (.arr rs) =>
    !rs.isEmpty &&
    (match lookupField fields "properties" with
     | none => false
     | some p =>
       truthy p && !(keyCount p == 0) &&
       rs.all (fun r => inOp (jsKeyString r) p == some true))
  | some _ => false

mutual
/-- The full recursive invariant of a harmonized schema: every object node
keeps only allow-listed keys and satisfies `reqInv`. -/
def cleanInv : Json → Bool
  | .arr xs => cleanInvList xs
  | .obj fields => reqInv fields && cleanInvFields fields
  | _ => true

def cleanInvList : List Json → Bool
  | [] => true
  | x :: xs => cleanInv x && cleanInvList xs

def cleanInvFields : List (String × Json) → Bool
  | [] => true
  | (k, v) :: rest => allowedKeys.contains k && cleanInv v && cleanInvFields rest
end

/-- One requested function call of a model response. -/
structure FunctionCall where
  name : String
  args : Option (List (String × Json))

/-- One model response: requested calls plus the plain text
(`response.text ?? ''`). -/
structure ModelResponse where
  functionCalls : List FunctionCall
  text : String

/-- One typed content part of a ToolResult (only the text is consumed). -/
structure ToolPart where
  text : String

/-- Output of one capability invocation. -/
structure ToolResult where
  content : List ToolPart

/-- Outcome of running a tool handler: a normal result, or a thrown exception
carrying its operator-facing detail. -/
inductive HandlerOutcome where
  | ok (r : ToolResult)
  | exn (detail : String)

/-- The fixed model-facing text substituted for any tool fault. -/
def systemErrorText : String :=
  "Sorry, there was a system error. Please try again or check your details."

/-- The `try`/`catch` around tool dispatch: a thrown handler fault is replaced
by a ToolResult with the single fixed text part. -/
def catchToolError : HandlerOutcome → ToolResult
  | .ok r => r
  | .exn _ => ⟨[⟨systemErrorText⟩]⟩

/-- `fetchedText`: the text of the first content part (the remaining branches
of the extraction handle non-MCP-shaped values and yield `''` likewise). -/
def fetchedText (r : ToolResult) : String :=
  match r.content with
  | [] => ""
  | p :: _ => p.text

/-- The truncation marker appended to a clipped chunk. -/
def truncationMarker : List Char :=
  "\n[Content truncated. Ask for more to continue.]".data

/-- `let chunk = fetchedText.slice(0, MAX_CHUNK_SIZE); if (fetchedText.length >
MAX_CHUNK_SIZE) chunk += marker` — the per-iteration output truncation. -/
def foldChunk (maxChunkSize : Nat) (fetched : List Char) : List Char :=
  let chunk := fetched.take maxChunkSize
  if fetched.length > maxChunkSize then chunk ++ truncationMarker else chunk

/-- Chat route constants (first copy). -/
def MAX_CHUNK_SIZE : Nat := 5000

def MAX_CHUNKS : Nat := 5

/-- Insight route constants (second copy). -/
def MAX_CHUNK_SIZE_insight : Nat := 2000

def MAX_CHUNKS_insight : Nat := 3

/-- The fallback result text when the final model text is empty/whitespace. -/
def fallbackText : String := "Sorry, I do not have an answer for that right now."

/-- Observable outcome of one run of the tool-calling loop. -/
structure LoopResult where
  toolCalls : Nat
  executed : List FunctionCall
  seen : List ModelResponse
  folded : List (List Char)
  finalResponse : ModelResponse

/-- The tool-calling `while` loop (part_001 lines 1147-1205, part_002 lines
681-758): while the response requests calls and `toolCalls < MAX_CHUNKS`,
dispatch only the first requested call, catch faults, truncate the result,
fold it back, and ask the model again.  The model backend is the oracle
`model` (response after the n-th tool turn) and tool execution is the oracle
`handler`; `executed`, `seen` and `folded` record the dispatched calls, the
responses consumed and the folded-back texts. -/
def runLoopAux (maxChunks maxChunkSize : Nat) (model : Nat → ModelResponse)
    (handler : Nat → FunctionCall → HandlerOutcome) (toolCalls : Nat)
    (resp : ModelResponse) (executed : List FunctionCall)
    (seen : List ModelResponse) (folded : List (List Char)) : LoopResult :=
  match resp.functionCalls with
  | [] => ⟨toolCalls, executed, seen, folded, resp⟩
  | fc :: _ =>
    if _h : toolCalls < maxChunks then
      runLoopAux maxChunks maxChunkSize model handler (toolCalls + 1) (model toolCalls)
        (executed ++ [fc]) (seen ++ [resp])
        (folded ++ [("Tool response for " ++ fc.name ++ ": ").data ++
          foldChunk maxChunkSize (fetchedText (catchToolError (handler toolCalls fc))).data])
    else ⟨toolCalls, executed, seen, folded, resp⟩
termination_by maxChunks - toolCalls

/-- One request's loop, started on the first model response. -/
def runLoop (maxChunks maxChunkSize : Nat) (model : Nat → ModelResponse)
    (handler : Nat → FunctionCall → HandlerOutcome) (resp0 : ModelResponse) :
    LoopResult :=
  runLoopAux maxChunks maxChunkSize model handler 0 resp0 [] [] []

/-- `resultText = geminiText.trim() !== '' ? geminiText : 'Sorry, I do not
have an answer for that right now.'` -/
def loopResultText (r : LoopResult) : String :=
  if r.finalResponse.text.trim ≠ "" then r.finalResponse.text else fallbackText

/-- The locally implemented tool names of the chat route. -/
def customToolNames : List String :=
  ["patient_search_tool", "register_patient_tool", "log_visit_and_assign_queue_tool",
   "doctor_search_tool", "triage_tool"]

/-- `'k' in bag` on an argument bag. -/
def bagHasKey (bag : List (String × Json)) (k : String) : Bool :=
  bag.any (fun p => p.1 == k)

/-- The `describe_table` defaulting followed by `functionCall.args || ` empty
bag: a missing bag, or one without `table_name`, becomes the non-empty default
bag for `describe_table`; every other remote call forwards its bag as-is. -/
def forwardedArgs (name : String) (args : Option (List (String × Json))) :
    List (String × Json) :=
  let args :=
    if name = "describe_table" then
      match args with
      | none => some [("table_name", Json.str "patients")]
      | some bag =>
        if bagHasKey bag "table_name" then some bag
        else some [("table_name", Json.str "patients")]
    else args
  args.getD []

/-- Where a requested call is dispatched: a local handler or the remote MCP
tool server. -/
inductive DispatchRoute where
  | localTool (name : String) (args : List (String × Json))
  | remote (name : String) (args : List (String × Json))

/-- The dispatch decision of the loop body: local capability names first;
anything else goes to the remote server with `forwardedArgs`. -/
def routeCall (fc : FunctionCall) : DispatchRoute :=
  if customToolNames.contains fc.name then
    .localTool fc.name (fc.args.getD [])
  else
    .remote fc.name (forwardedArgs fc.name fc.args)

/-- JavaScript truthiness of a possibly-absent value. -/
def optTruthy : Option Json → Bool
  | some v => truthy v
  | none => false

/-- JavaScript `a || b` on possibly-absent values. -/
def jsOr (a b : Option Json) : Option Json :=
  match a with
  | some v => if truthy v then some v else b
  | none => b

/-- Truthiness of one key of an argument bag. -/
def argTruthy (args : List (String × Json)) (k : String) : Bool :=
  optTruthy (lookupField args k)

/-- JavaScript property assignment `args[k] = v`: update in place, or append
the new key. -/
def setOrAdd (args : List (String × Json)) (k : String) (v : Json) :
    List (String × Json) :=
  if bagHasKey args k then setKey args k v else args ++ [(k, v)]

mutual
/-- The structural equality used for SQL `=` comparisons of bound values. -/
def jsonEq : Json → Json → Bool
  | .null, .null => true
  | .bool a, .bool b => a == b
  | .num a, .num b => a == b
  | .str a, .str b => a == b
  | .arr a, .arr b => jsonListEq a b
  | .obj a, .obj b => jsonFieldsEq a b
  | _, _ => false

def jsonListEq : List Json → List Json → Bool
  | [], [] => true
  | a :: as, b :: bs => jsonEq a b && jsonListEq as bs
  | _, _ => false

def jsonFieldsEq : List (String × Json) → List (String × Json) → Bool
  | [], [] => true
  | (k1, v1) :: as, (k2, v2) :: bs => k1 == k2 && jsonEq v1 v2 && jsonFieldsEq as bs
  | _, _ => false
end

/-- `/^[0-9]\x7b12\x7d$/.test(s)`: exactly twelve decimal digits. -/
def isTwelveDigits (s : String) : Bool :=
  s.length == 12 && s.data.all (fun c => c.isDigit)

/-- The `ic_or_passport` alias split of `register_patient_tool`: a
twelve-digit value becomes `ic_number`, anything else `passport_number`
(`RegExp.test` coerces its argument to a string and cannot throw). -/
def normalizeIcOrPassport (args : List (String × Json)) : List (String × Json) :=
  if !argTruthy args "ic_number" && !argTruthy args "passport_number" &&
      argTruthy args "ic_or_passport" then
    let icp := (lookupField args "ic_or_passport").getD .null
    if isTwelveDigits (jsKeyString icp) then setOrAdd args "ic_number" icp
    else setOrAdd args "passport_number" icp
  else args

/-- The alias/locale normalization at the top of `register_patient_tool`:
the `phone` alias, then the Malay gender mapping, then the `ic_or_passport`
split.  The gender mapping runs `(args.gender as string).toLowerCase()` on
every truthy gender value — the TypeScript cast is erased at runtime, so a
truthy non-string gender throws a `TypeError` there, modelled as `none`,
before any `missing:` reply can be produced. -/
def normalizeRegisterArgs (args : List (String × Json)) :
    Option (List (String × Json)) :=
  let args :=
    if !argTruthy args "phone_number" && argTruthy args "phone" then
      setOrAdd args "phone_number" ((lookupField args "phone").getD .null)
    else args
  match lookupField args "gender" with
  | some g =>
    if truthy g then
      match g with
      | .str s =>
        let gl := s.toLower
        let args :=
          if gl = "lelaki" || gl = "male" then setOrAdd args "gender" (.str "male")
          else if gl = "perempuan" || gl = "female" then
            setOrAdd args "gender" (.str "female")
          else args
        some (normalizeIcOrPassport args)
      | _ => none
    else some (normalizeIcOrPassport args)
  | none => some (normalizeIcOrPassport args)

/-- `const full_name = args.full_name || args.name` (computed on the incoming
bag, before the other aliases). -/
def regFullName (args0 : List (String × Json)) : Option Json :=
  jsOr (lookupField args0 "full_name") (lookupField args0 "name")

/-- The `missing` list of `register_patient_tool`, computed on the already
normalized bag: the falsy entries of the handler's own required list, with
the combined identifier entry unshifted in front when both identifiers are
absent.  (Note the handler demands `allergies` even though its declaration
documents it as optional.) -/
def registerMissingList (args : List (String × Json)) : List String :=
  let missing :=
    ["phone_number", "gender", "address", "allergies"].filter
      (fun f => !argTruthy args f)
  if !argTruthy args "ic_number" && !argTruthy args "passport_number" then
    "ic_number or passport_number" :: missing
  else missing

/-- One row of the `patients` table as inserted by `register_patient_tool`
(`null` models SQL NULL for an absent identifier). -/
structure RegPatientRow where
  full_name : Json
  ic_number : Json
  passport_number : Json
  phone_number : Json
  gender : Json
  race : String
  address : Json
  allergies : Json

/-- The structured reply of `register_patient_tool`. -/
inductive RegReply where
  | missingFullName
  | missing (fields : List String)
  | duplicate
  | registered
deriving Repr, DecidableEq

/-- The model-facing text of a reply.  The missing/duplicate texts are the
code's exact strings; the success text in the code additionally appends the
pretty-printed inserted row, which no claim inspects. -/
def regReplyText : RegReply → String
  | .missingFullName => "missing: full_name"
  | .missing fields => "missing: " ++ String.intercalate ", " fields
  | .duplicate => "patient already exists."
  | .registered => "registration successful. patient details: "

/-- `register_patient_tool` (part_001 lines 694-758) over a store of patient
rows: alias normalization — whose gender mapping can throw, modelled as
`none`, before either `missing:` early return —, the two missing-field early
returns (no insertion), the duplicate check by `ic_number` then
`passport_number`, and the insertion.  The defensive PRAGMA check for the
`full_name` column always succeeds on the schema this store models and is
omitted. -/
def register_patient_tool (store : List RegPatientRow)
    (args0 : List (String × Json)) : Option (RegReply × List RegPatientRow) :=
  let full_name := regFullName args0
  match normalizeRegisterArgs args0 with
  | none => none
  | some args =>
    let missing := registerMissingList args
    if !optTruthy full_name then some (.missingFullName, store)
    else if !missing.isEmpty then some (.missing missing, store)
    else
      let ic := lookupField args "ic_number"
      let passport := lookupField args "passport_number"
      let race :=
        match lookupField args "race" with
        | some (.str r) =>
          if ["Malay", "Indian", "Chinese", "Eurasian", "Other"].contains r then r
          else "Other"
        | _ => "Other"
      let existing :=
        if optTruthy ic && store.any (fun r => jsonEq r.ic_number (ic.getD .null)) then
          true
        else if optTruthy passport &&
            store.any (fun r => jsonEq r.passport_number (passport.getD .null)) then
          true
        else false
      if existing then some (.duplicate, store)
      else
        some (.registered, store ++ [{
          full_name := full_name.getD .null
          ic_number := ic.getD .null
          passport_number := passport.getD .null
          phone_number := (lookupField args "phone_number").getD .null
          gender := (lookupField args "gender").getD .null
          race := race
          address := (lookupField args "address").getD .null
          allergies := (jsOr (lookupField args "allergies") (some (.str "None"))).getD .null }])

/-- Modelled from the spec (§6 and Scenario C, for stating claim C6 only):
the names of the absent mandatory registration fields — name, one of the two
identifiers, contact, gender, address. -/
def specRegisterMissing (args : List (String × Json)) : List String :=
  (if !argTruthy args "full_name" then ["full_name"] else []) ++
  (if !argTruthy args "ic_number" && !argTruthy args "passport_number" then
    ["ic_number or passport_number"] else []) ++
  (if !argTruthy args "phone_number" then ["phone_number"] else []) ++
  (if !argTruthy args "gender" then ["gender"] else []) ++
  (if !argTruthy args "address" then ["address"] else [])

/-- JavaScript property access `v[k]` (absent key or primitive receiver gives
`undefined`). -/
def propGet (v : Json) (k : String) : Option Json :=
  match v with
  | .obj fields => lookupField fields k
  | _ => none

/-- The loop's triage-level extraction (part_001 lines 1183-1190):
`JSON.parse` inside `try`, abstracted over the parse function; `parse`
returning `none` models a thrown SyntaxError, swallowed by the empty `catch`
so that `triageLevel` stays undefined. -/
def extractTriageLevel (parse : String → Option Json) (fetchedText : String) :
    Option Json :=
  match parse fetchedText with
  | none => none
  | some j =>
    if truthy j then
      match propGet j "triage_level" with
      | some v => if truthy v then some v else none
      | none => none
    else none

/-- Index of the first opening brace. -/
def firstOpenIdx : List Char → Option Nat
  | [] => none
  | c :: rest =>
    if c = '\x7b' then some 0 else (firstOpenIdx rest).map (· + 1)

/-- Index of the last closing brace. -/
def lastCloseIdx : List Char → Option Nat
  | [] => none
  | c :: rest =>
    match lastCloseIdx rest with
    | some j => some (j + 1)
    | none => if c = '\x7d' then some 0 else none

/-- `text.match(/\x7b[\s\S]*\x7d/)` of `triage_tool` (data.ts line 450): the
regex's leftmost match starts at the first opening brace, and the greedy
`[\s\S]*` extends it to the last closing brace of the whole text; there is no
match when no closing brace follows the first opening one. -/
def braceMatch (cs : List Char) : Option (List Char) :=
  match firstOpenIdx cs, lastCloseIdx cs with
  | some i, some j => if i < j then some ((cs.drop i).take (j - i + 1)) else none
  | _, _ => none

/-- Helper for `specFirstPayload`: scan for the closing brace matching an
already-open one, tracking nesting depth. -/
def matchClose (cs : List Char) (depth : Nat) (acc : List Char) : Option (List Char) :=
  match cs with
  | [] => none
  | c :: rest =>
    if c = '\x7b' then matchClose rest (depth + 1) (acc ++ [c])
    else if c = '\x7d' then
      if depth = 1 then some (acc ++ [c])
      else matchClose rest (depth - 1) (acc ++ [c])
    else matchClose rest depth (acc ++ [c])

/-- Follows the spec's words for claim C7: the first well-formed
delimiter-to-delimiter structured payload of a text — the block from the
first opening brace to its matching closing brace. -/
def specFirstPayload : List Char → Option (List Char)
  | [] => none
  | c :: rest =>
    if c = '\x7b' then matchClose rest 1 ['\x7b'] else specFirstPayload rest

/-- One row of the `patients` store as consulted by `search_tool`
(`last_attended` as an abstract timestamp). -/
structure PatientRec where
  id : Nat
  ic_number : Option String
  passport_number : Option String
  last_attended : Nat

/-- The `search_tool` input bag. -/
structure SearchInput where
  ic_number : Option String
  passport_number : Option String

/-- The outcome object of `search_tool`. -/
inductive SearchOutcome where
  | found (p : PatientRec)
  | not_found

/-- Truthiness of a possibly-absent string. -/
def strTruthy : Option String → Bool
  | some s => s != ""
  | none => false

/-- `search_tool` (data.ts lines 492-525): look up by `ic_number`, else by
`passport_number`; on a hit, update that row's `last_attended` and report
`found`; otherwise report `not_found`.  No branch inserts a row. -/
def search_tool (store : List PatientRec) (now : Nat) (inp : SearchInput) :
    SearchOutcome × List PatientRec :=
  let patient :=
    if strTruthy inp.ic_number then
      store.find? (fun r => r.ic_number == inp.ic_number)
    else if strTruthy inp.passport_number then
      store.find? (fun r => r.passport_number == inp.passport_number)
    else none
  match patient with
  | some p =>
    (.found p,
     store.map (fun r => if r.id = p.id then { r with last_attended := now } else r))
  | none => (.not_found, store)

/-- The `status` field of a `search_tool` outcome. -/
def searchStatus : SearchOutcome → String
  | .found _ => "found"
  | .not_found => "not_found"

/-- A registration argument bag with gender, address and an identifier
present but `full_name` and `phone_number` absent. -/
def c6args : List (String × Json) :=
  [("gender", Json.str "male"), ("address", Json.str "jalan 1"),
   ("ic_number", Json.str "900101011234")]

theorem cleanInvList_iff (xs : List Json) :
    cleanInvList xs = true ↔ ∀ x ∈ xs, cleanInv x = true := by
  induction xs with
  | nil => simp [cleanInvList]
  | cons x xs ih => simp [cleanInvList, ih]

theorem cleanInvFields_iff (fs : List (String × Json)) :
    cleanInvFields fs = true ↔
      ∀ p ∈ fs, allowedKeys.contains p.1 = true ∧ cleanInv p.2 = true := by
  induction fs with
  | nil => simp [cleanInvFields]
  | cons p fs ih =>
    obtain ⟨k, v⟩ := p
    simp [cleanInvFields, ih, and_assoc]

theorem lookupField_eraseKey_self (l : List (String × Json)) (k : String) :
    lookupField (eraseKey l k) k = none := by
  induction l with
  | nil => rfl
  | cons p l ih =>
    by_cases h : p.1 = k
    · simpa [eraseKey, h] using ih
    · simpa [eraseKey, lookupField, h] using ih

theorem lookupField_eraseKey_ne (l : List (String × Json)) (k k' : String)
    (h : k' ≠ k) : lookupField (eraseKey l k) k' = lookupField l k' := by
  induction l with
  | nil => rfl
  | cons p l ih =>
    simp only [eraseKey, lookupField]
    by_cases hk : p.1 = k
    · have hne : ¬ p.1 = k' := by rw [hk]; exact fun hh => h hh.symm
      rw [if_pos hk, if_neg hne, ih]
    · rw [if_neg hk]
      by_cases hk' : p.1 = k'
      · simp only [lookupField, if_pos hk']
      · simp only [lookupField, if_neg hk', ih]

theorem lookupField_setKey_self (l : List (String × Json)) (k : String) (v : Json)
    (h : lookupField l k ≠ none) : lookupField (setKey l k v) k = some v := by
  induction l with
  | nil => simp [lookupField] at h
  | cons p l ih =>
    by_cases hk : p.1 = k
    · simp [setKey, lookupField, hk]
    · have h' : lookupField l k ≠ none := by
        simpa [lookupField, hk] using h
      simpa [setKey, lookupField, hk] using ih h'

theorem lookupField_setKey_ne (l : List (String × Json)) (k k' : String) (v : Json)
    (h : k' ≠ k) : lookupField (setKey l k v) k' = lookupField l k' := by
  induction l with
  | nil => rfl
  | cons p l ih =>
    simp only [setKey, lookupField]
    by_cases hk : p.1 = k
    · have hne : ¬ p.1 = k' := by rw [hk]; exact fun hh => h hh.symm
      rw [if_pos hk]
      rw [if_neg hne, if_neg hne, ih]
    · rw [if_neg hk]
      by_cases hk' : p.1 = k'
      · rw [if_pos hk', if_pos hk']
      · rw [if_neg hk', if_neg hk', ih]

theorem setKey_setKey (l : List (String × Json)) (k : String) (v : Json) :
    setKey (setKey l k v) k v = setKey l k v := by
  induction l with
  | nil => rfl
  | cons p l ih =>
    by_cases hk : p.1 = k
    · simp [setKey, hk, ih]
    · simp [setKey, hk, ih]

theorem lookupField_mem (l : List (String × Json)) (k : String) (v : Json)
    (h : lookupField l k = some v) : (k, v) ∈ l := by
  induction l with
  | nil => simp [lookupField] at h
  | cons p l ih =>
    by_cases hk : p.1 = k
    · simp only [lookupField, hk, if_true, Option.some.injEq] at h
      subst h
      rw [← hk]
      exact List.mem_cons_self p l
    · simp only [lookupField, hk, if_false] at h
      exact List.mem_cons.mpr (Or.inr (ih h))

theorem filterReq_subset (reqs : List Json) (props : Json) (reqs' : List Json)
    (h : filterReq reqs props = some reqs') : ∀ r ∈ reqs', r ∈ reqs := by
  induction reqs generalizing reqs' with
  | nil => simp [filterReq] at h; subst h; simp
  | cons r rest ih =>
    simp only [filterReq] at h
    cases hin : inOp (jsKeyString r) props with
    | none => rw [hin] at h; exact absurd h (by simp)
    | some b =>
      rw [hin] at h
      cases hrec : filterReq rest props with
      | none => rw [hrec] at h; exact absurd h (by simp)
      | some rest' =>
        rw [hrec] at h
        simp only [Option.some.injEq] at h
        subst h
        intro x hx
        cases b with
        | true =>
          simp only [if_true] at hx
          rcases List.mem_cons.mp hx with h1 | h2
          · exact List.mem_cons.mpr (Or.inl h1)
          · exact List.mem_cons.mpr (Or.inr (ih rest' hrec x h2))
        | false =>
          simp at hx
          exact List.mem_cons.mpr (Or.inr (ih rest' hrec x hx))

theorem filterReq_all_true (reqs : List Json) (props : Json) (reqs' : List Json)
    (h : filterReq reqs props = some reqs') :
    ∀ r ∈ reqs', inOp (jsKeyString r) props = some true := by
  induction reqs generalizing reqs' with
  | nil => simp [filterReq] at h; subst h; simp
  | cons r rest ih =>
    simp only [filterReq] at h
    cases hin : inOp (jsKeyString r) props with
    | none => rw [hin] at h; exact absurd h (by simp)
    | some b =>
      rw [hin] at h
      cases hrec : filterReq rest props with
      | none => rw [hrec] at h; exact absurd h (by simp)
      | some rest' =>
        rw [hrec] at h
        simp only [Option.some.injEq] at h
        subst h
        intro x hx
        cases b with
        | true =>
          simp only [if_true] at hx
          rcases List.mem_cons.mp hx with h1 | h2
          · subst h1; exact hin
          · exact ih rest' hrec x h2
        | false =>
          simp at hx
          exact ih rest' hrec x hx

theorem filterReq_of_all_true (reqs : List Json) (props : Json)
    (h : ∀ r ∈ reqs, inOp (jsKeyString r) props = some true) :
    filterReq reqs props = some reqs := by
  induction reqs with
  | nil => rfl
  | cons r rest ih =>
    have hr : inOp (jsKeyString r) props = some true := h r (by simp)
    have hrest : filterReq rest props = some rest :=
      ih (fun x hx => h x (List.mem_cons.mpr (Or.inr hx)))
    simp [filterReq, hr, hrest]

theorem cleanInvFields_eraseKey (l : List (String × Json)) (k : String)
    (h : cleanInvFields l = true) : cleanInvFields (eraseKey l k) = true := by
  rw [cleanInvFields_iff] at h ⊢
  intro p hp
  apply h
  induction l with
  | nil => simp [eraseKey] at hp
  | cons q l ih =>
    simp only [eraseKey] at hp
    by_cases hq : q.1 = k
    · rw [if_pos hq] at hp
      exact List.mem_cons.mpr (Or.inr (ih (fun r hr => h r (List.mem_cons.mpr (Or.inr hr))) hp))
    · rw [if_neg hq] at hp
      rcases List.mem_cons.mp hp with h1 | h2
      · exact List.mem_cons.mpr (Or.inl h1)
      · exact List.mem_cons.mpr
          (Or.inr (ih (fun r hr => h r (List.mem_cons.mpr (Or.inr hr))) h2))

theorem cleanInvFields_setKey (l : List (String × Json)) (k : String) (v : Json)
    (hl : cleanInvFields l = true) (hv : cleanInv v = true) :
    cleanInvFields (setKey l k v) = true := by
  induction l with
  | nil => rfl
  | cons p l ih =>
    rw [cleanInvFields_iff] at hl
    have hp := hl p (List.mem_cons_self p l)
    have hl' : cleanInvFields l = true :=
      (cleanInvFields_iff l).mpr (fun r hr => hl r (List.mem_cons.mpr (Or.inr hr)))
    rw [cleanInvFields_iff]
    intro q hq
    simp only [setKey] at hq
    rcases List.mem_cons.mp hq with h1 | h2
    · by_cases hk : p.1 = k
      · rw [if_pos hk] at h1
        subst h1
        exact ⟨hp.1, hv⟩
      · rw [if_neg hk] at h1
        subst h1
        exact hp
    · exact (cleanInvFields_iff _).mp (ih hl') q h2

theorem fixRequired_inv (cs cs' : List (String × Json))
    (hinv : cleanInvFields cs = true) (h : fixRequired cs = some cs') :
    cleanInvFields cs' = true ∧ reqInv cs' = true := by
  unfold fixRequired at h
  cases hreq : lookupField cs "required" with
  | none =>
    rw [hreq] at h
    simp only [Option.some.injEq] at h
    subst h
    refine ⟨hinv, ?_⟩
    unfold reqInv
    rw [hreq]
  | some reqVal =>
    rw [hreq] at h
    dsimp only at h
    cases hprops : lookupField cs "properties" with
    | none =>
      rw [hprops] at h
      dsimp only at h
      simp only [Option.some.injEq] at h
      subst h
      refine ⟨cleanInvFields_eraseKey _ _ hinv, ?_⟩
      unfold reqInv
      rw [lookupField_eraseKey_self]
    | some props =>
      rw [hprops] at h
      dsimp only at h
      by_cases hcond : (!truthy props || keyCount props == 0) = true
      · rw [if_pos hcond] at h
        simp only [Option.some.injEq] at h
        subst h
        refine ⟨cleanInvFields_eraseKey _ _ hinv, ?_⟩
        unfold reqInv
        rw [lookupField_eraseKey_self]
      · rw [if_neg hcond] at h
        cases reqVal with
        | arr reqs =>
          dsimp only at h
          cases hfil : filterReq reqs props with
          | none => rw [hfil] at h; exact absurd h (by simp)
          | some reqs' =>
            rw [hfil] at h
            dsimp only at h
            by_cases hemp : reqs'.isEmpty = true
            · rw [if_pos hemp] at h
              simp only [Option.some.injEq] at h
              subst h
              refine ⟨cleanInvFields_eraseKey _ _ hinv, ?_⟩
              unfold reqInv
              rw [lookupField_eraseKey_self]
            · rw [if_neg hemp] at h
              simp only [Option.some.injEq] at h
              subst h
              have hmem := lookupField_mem _ _ _ hreq
              have hval := (cleanInvFields_iff cs).mp hinv _ hmem
              have hlist : cleanInvList reqs = true := by
                simpa [cleanInv] using hval.2
              have hlist' : cleanInvList reqs' = true := by
                rw [cleanInvList_iff]
                intro r hr
                exact (cleanInvList_iff reqs).mp hlist r
                  (filterReq_subset reqs props reqs' hfil r hr)
              constructor
              · exact cleanInvFields_setKey cs "required" (.arr reqs') hinv
                  (by simpa [cleanInv] using hlist')
              · unfold reqInv
                rw [lookupField_setKey_self _ _ _ (by rw [hreq]; simp)]
                rw [lookupField_setKey_ne _ _ _ _ (by decide), hprops]
                have h1 : (!reqs'.isEmpty) = true := by
                  simpa using hemp
                have h2 : (truthy props && !(keyCount props == 0)) = true := by
                  revert hcond
                  cases truthy props <;> cases hkc : keyCount props == 0 <;> simp
                have h3 : reqs'.all (fun r => inOp (jsKeyString r) props == some true) = true := by
                  rw [List.all_eq_true]
                  intro r hr
                  have := filterReq_all_true reqs props reqs' hfil r hr
                  simpa using this
                simp only [h1, Bool.true_and]
                simp only [Bool.and_eq_true] at h2 ⊢
                exact ⟨h2, h3⟩
        | null => exact absurd h (by dsimp only; simp)
        | bool b => exact absurd h (by dsimp only; simp)
        | num n => exact absurd h (by dsimp only; simp)
        | str s => exact absurd h (by dsimp only; simp)
        | obj fs => exact absurd h (by dsimp only; simp)

mutual
/-- Every value produced by `cleanSchema` satisfies the recursive
harmonization invariant. -/
theorem cleanSchema_inv : ∀ (j t : Json), cleanSchema j = some t → cleanInv t = true
  | .null, t, h => by
    simp only [cleanSchema, Option.some.injEq] at h
    subst h; rfl
  | .bool b, t, h => by
    simp only [cleanSchema, Option.some.injEq] at h
    subst h; rfl
  | .num n, t, h => by
    simp only [cleanSchema, Option.some.injEq] at h
    subst h; rfl
  | .str s, t, h => by
    simp only [cleanSchema, Option.some.injEq] at h
    subst h; rfl
  | .arr xs, t, h => by
    simp only [cleanSchema] at h
    cases hys : cleanList xs with
    | none => rw [hys] at h; exact absurd h (by simp)
    | some ys =>
      rw [hys] at h
      simp only [Option.some.injEq] at h
      subst h
      simpa [cleanInv] using cleanList_inv xs ys hys
  | .obj fields, t, h => by
    simp only [cleanSchema] at h
    cases hcf : cleanFields fields with
    | none => rw [hcf] at h; exact absurd h (by simp)
    | some cs =>
      rw [hcf] at h
      dsimp only at h
      cases hfix : fixRequired cs with
      | none => rw [hfix] at h; exact absurd h (by simp)
      | some cs' =>
        rw [hfix] at h
        simp only [Option.some.injEq] at h
        subst h
        have h1 := cleanFields_inv fields cs hcf
        have h2 := fixRequired_inv cs cs' h1 hfix
        simp [cleanInv, h2.1, h2.2]

theorem cleanList_inv : ∀ (xs ys : List Json), cleanList xs = some ys →
    cleanInvList ys = true
  | [], ys, h => by
    simp only [cleanList, Option.some.injEq] at h
    subst h; rfl
  | x :: xs, ys, h => by
    simp only [cleanList] at h
    cases hy : cleanSchema x with
    | none => rw [hy] at h; exact absurd h (by simp)
    | some y =>
      rw [hy] at h
      dsimp only at h
      cases hys : cleanList xs with
      | none => rw [hys] at h; exact absurd h (by simp)
      | some ys' =>
        rw [hys] at h
        simp only [Option.some.injEq] at h
        subst h
        simp [cleanInvList, cleanSchema_inv x y hy, cleanList_inv xs ys' hys]

theorem cleanFields_inv : ∀ (fs cs : List (String × Json)), cleanFields fs = some cs →
    cleanInvFields cs = true
  | [], cs, h => by
    simp only [cleanFields, Option.some.injEq] at h
    subst h; rfl
  | (k, v) :: rest, cs, h => by
    simp only [cleanFields] at h
    by_cases hal : allowedKeys.contains k
    · rw [if_pos hal] at h
      cases hv : cleanSchema v with
      | none => rw [hv] at h; exact absurd h (by simp)
      | some v' =>
        rw [hv] at h
        dsimp only at h
        cases hrest : cleanFields rest with
        | none => rw [hrest] at h; exact absurd h (by simp)
        | some rest' =>
          rw [hrest] at h
          simp only [Option.some.injEq] at h
          subst h
          simp only [cleanInvFields, Bool.and_eq_true]
          exact ⟨⟨hal, cleanSchema_inv v v' hv⟩, cleanFields_inv rest rest' hrest⟩
    · rw [if_neg hal] at h
      exact cleanFields_inv rest cs h
end

theorem cleanFields_length_le : ∀ (fs cs : List (String × Json)),
    cleanFields fs = some cs → cs.length ≤ fs.length := by
  intro fs
  induction fs with
  | nil =>
    intro cs h
    simp only [cleanFields, Option.some.injEq] at h
    subst h
    exact Nat.le_refl 0
  | cons p rest ih =>
    intro cs h
    obtain ⟨k, v⟩ := p
    simp only [cleanFields] at h
    by_cases hal : allowedKeys.contains k
    · rw [if_pos hal] at h
      cases hv : cleanSchema v with
      | none => rw [hv] at h; exact absurd h (by simp)
      | some v' =>
        rw [hv] at h
        dsimp only at h
        cases hrest : cleanFields rest with
        | none => rw [hrest] at h; exact absurd h (by simp)
        | some rest' =>
          rw [hrest] at h
          simp only [Option.some.injEq] at h
          subst h
          simpa using Nat.succ_le_succ (ih rest' hrest)
    · rw [if_neg hal] at h
      exact Nat.le_succ_of_le (ih cs h)

theorem cleanFields_self_pointwise : ∀ (l : List (String × Json)),
    cleanFields l = some l →
    ∀ p ∈ l, allowedKeys.contains p.1 = true ∧ cleanSchema p.2 = some p.2 := by
  intro l
  induction l with
  | nil => intro _ p hp; simp at hp
  | cons q rest ih =>
    intro h p hp
    obtain ⟨k, v⟩ := q
    simp only [cleanFields] at h
    by_cases hal : allowedKeys.contains k
    · rw [if_pos hal] at h
      cases hv : cleanSchema v with
      | none => rw [hv] at h; exact absurd h (by simp)
      | some v' =>
        rw [hv] at h
        dsimp only at h
        cases hrest : cleanFields rest with
        | none => rw [hrest] at h; exact absurd h (by simp)
        | some rest' =>
          rw [hrest] at h
          simp only [Option.some.injEq, List.cons.injEq, Prod.mk.injEq,
            true_and] at h
          obtain ⟨hv', hrest'⟩ := h
          subst hv'
          subst hrest'
          rcases List.mem_cons.mp hp with h1 | h2
          · subst h1; exact ⟨hal, hv⟩
          · exact ih hrest p h2
    · rw [if_neg hal] at h
      have hlen := cleanFields_length_le rest ((k, v) :: rest) h
      simp at hlen

theorem cleanFields_self_of : ∀ (l : List (String × Json)),
    (∀ p ∈ l, allowedKeys.contains p.1 = true ∧ cleanSchema p.2 = some p.2) →
    cleanFields l = some l := by
  intro l
  induction l with
  | nil => intro _; rfl
  | cons q rest ih =>
    intro h
    obtain ⟨k, v⟩ := q
    have hq := h (k, v) (List.mem_cons_self _ _)
    have hrest := ih (fun p hp => h p (List.mem_cons.mpr (Or.inr hp)))
    simp only [cleanFields, if_pos hq.1]
    rw [hq.2]
    dsimp only
    rw [hrest]

theorem cleanList_self_pointwise : ∀ (l : List Json),
    cleanList l = some l → ∀ x ∈ l, cleanSchema x = some x := by
  intro l
  induction l with
  | nil => intro _ x hx; simp at hx
  | cons y rest ih =>
    intro h x hx
    simp only [cleanList] at h
    cases hy : cleanSchema y with
    | none => rw [hy] at h; exact absurd h (by simp)
    | some y' =>
      rw [hy] at h
      dsimp only at h
      cases hrest : cleanList rest with
      | none => rw [hrest] at h; exact absurd h (by simp)
      | some rest' =>
        rw [hrest] at h
        simp only [Option.some.injEq, List.cons.injEq] at h
        obtain ⟨hy', hrest'⟩ := h
        subst hy'
        subst hrest'
        rcases List.mem_cons.mp hx with h1 | h2
        · subst h1; exact hy
        · exact ih hrest x h2

theorem cleanList_self_of : ∀ (l : List Json),
    (∀ x ∈ l, cleanSchema x = some x) → cleanList l = some l := by
  intro l
  induction l with
  | nil => intro _; rfl
  | cons y rest ih =>
    intro h
    have hy := h y (List.mem_cons_self _ _)
    have hrest := ih (fun x hx => h x (List.mem_cons.mpr (Or.inr hx)))
    simp only [cleanList]
    rw [hy]
    dsimp only
    rw [hrest]

theorem mem_eraseKey (l : List (String × Json)) (k : String)
    (q : String × Json) (h : q ∈ eraseKey l k) : q ∈ l := by
  induction l with
  | nil => simp [eraseKey] at h
  | cons p rest ih =>
    simp only [eraseKey] at h
    by_cases hp : p.1 = k
    · rw [if_pos hp] at h
      exact List.mem_cons.mpr (Or.inr (ih h))
    · rw [if_neg hp] at h
      rcases List.mem_cons.mp h with h1 | h2
      · exact List.mem_cons.mpr (Or.inl h1)
      · exact List.mem_cons.mpr (Or.inr (ih h2))

theorem mem_setKey (l : List (String × Json)) (k : String) (v : Json)
    (q : String × Json) (h : q ∈ setKey l k v) :
    ∃ p, p ∈ l ∧ q = (if p.1 = k then (p.1, v) else p) := by
  induction l with
  | nil => simp [setKey] at h
  | cons p rest ih =>
    simp only [setKey] at h
    rcases List.mem_cons.mp h with h1 | h2
    · exact ⟨p, List.mem_cons_self _ _, h1⟩
    · obtain ⟨p', hp', hq⟩ := ih h2
      exact ⟨p', List.mem_cons.mpr (Or.inr hp'), hq⟩

theorem cleanFields_eraseKey_self (l : List (String × Json)) (k : String)
    (h : cleanFields l = some l) :
    cleanFields (eraseKey l k) = some (eraseKey l k) :=
  cleanFields_self_of _
    (fun p hp => cleanFields_self_pointwise l h p (mem_eraseKey l k p hp))

theorem cleanFields_setKey_self (l : List (String × Json)) (k : String) (v : Json)
    (h : cleanFields l = some l) (hv : cleanSchema v = some v) :
    cleanFields (setKey l k v) = some (setKey l k v) := by
  apply cleanFields_self_of
  intro q hq
  obtain ⟨p, hp, hq'⟩ := mem_setKey l k v q hq
  by_cases hpk : p.1 = k
  · rw [if_pos hpk] at hq'
    subst hq'
    exact ⟨(cleanFields_self_pointwise l h p hp).1, hv⟩
  · rw [if_neg hpk] at hq'
    subst hq'
    exact cleanFields_self_pointwise l h _ hp

/-- `fixRequired` is stable on its own output. -/
theorem fixRequired_out_self (cs cs' : List (String × Json))
    (h : fixRequired cs = some cs') : fixRequired cs' = some cs' := by
  unfold fixRequired at h
  cases hreq : lookupField cs "required" with
  | none =>
    rw [hreq] at h
    simp only [Option.some.injEq] at h
    subst h
    unfold fixRequired
    rw [hreq]
  | some reqVal =>
    rw [hreq] at h
    dsimp only at h
    cases hprops : lookupField cs "properties" with
    | none =>
      rw [hprops] at h
      dsimp only at h
      simp only [Option.some.injEq] at h
      subst h
      unfold fixRequired
      rw [lookupField_eraseKey_self]
    | some props =>
      rw [hprops] at h
      dsimp only at h
      by_cases hcond : (!truthy props || keyCount props == 0) = true
      · rw [if_pos hcond] at h
        simp only [Option.some.injEq] at h
        subst h
        unfold fixRequired
        rw [lookupField_eraseKey_self]
      · rw [if_neg hcond] at h
        cases reqVal with
        | arr reqs =>
          dsimp only at h
          cases hfil : filterReq reqs props with
          | none => rw [hfil] at h; exact absurd h (by simp)
          | some reqs' =>
            rw [hfil] at h
            dsimp only at h
            by_cases hemp : reqs'.isEmpty = true
            · rw [if_pos hemp] at h
              simp only [Option.some.injEq] at h
              subst h
              unfold fixRequired
              rw [lookupField_eraseKey_self]
            · rw [if_neg hemp] at h
              simp only [Option.some.injEq] at h
              subst h
              unfold fixRequired
              rw [lookupField_setKey_self _ _ _ (by rw [hreq]; simp)]
              try dsimp only
              rw [lookupField_setKey_ne _ _ _ _ (by decide), hprops]
              try dsimp only
              rw [if_neg hcond]
              try dsimp only
              rw [filterReq_of_all_true reqs' props
                (fun r hr => filterReq_all_true reqs props reqs' hfil r hr)]
              try dsimp only
              rw [if_neg hemp, setKey_setKey]
        | null => exact absurd h (by dsimp only; simp)
        | bool b => exact absurd h (by dsimp only; simp)
        | num n => exact absurd h (by dsimp only; simp)
        | str s => exact absurd h (by dsimp only; simp)
        | obj fs => exact absurd h (by dsimp only; simp)

/-- The three possible shapes of a successful `fixRequired` output. -/
theorem fixRequired_shape (cs cs' : List (String × Json))
    (h : fixRequired cs = some cs') :
    cs' = cs ∨ cs' = eraseKey cs "required" ∨
    ∃ props reqs reqs', lookupField cs "required" = some (.arr reqs) ∧
      lookupField cs "properties" = some props ∧
      filterReq reqs props = some reqs' ∧
      cs' = setKey cs "required" (.arr reqs') := by
  unfold fixRequired at h
  cases hreq : lookupField cs "required" with
  | none =>
    rw [hreq] at h
    simp only [Option.some.injEq] at h
    exact Or.inl h.symm
  | some reqVal =>
    rw [hreq] at h
    dsimp only at h
    cases hprops : lookupField cs "properties" with
    | none =>
      rw [hprops] at h
      dsimp only at h
      simp only [Option.some.injEq] at h
      exact Or.inr (Or.inl h.symm)
    | some props =>
      rw [hprops] at h
      dsimp only at h
      by_cases hcond : (!truthy props || keyCount props == 0) = true
      · rw [if_pos hcond] at h
        simp only [Option.some.injEq] at h
        exact Or.inr (Or.inl h.symm)
      · rw [if_neg hcond] at h
        cases reqVal with
        | arr reqs =>
          dsimp only at h
          cases hfil : filterReq reqs props with
          | none => rw [hfil] at h; exact absurd h (by simp)
          | some reqs' =>
            rw [hfil] at h
            dsimp only at h
            by_cases hemp : reqs'.isEmpty = true
            · rw [if_pos hemp] at h
              simp only [Option.some.injEq] at h
              exact Or.inr (Or.inl h.symm)
            · rw [if_neg hemp] at h
              simp only [Option.some.injEq] at h
              exact Or.inr (Or.inr ⟨props, reqs, reqs', rfl, rfl, hfil, h.symm⟩)
        | null => exact absurd h (by dsimp only; simp)
        | bool b => exact absurd h (by dsimp only; simp)
        | num n => exact absurd h (by dsimp only; simp)
        | str s => exact absurd h (by dsimp only; simp)
        | obj fs => exact absurd h (by dsimp only; simp)

mutual
/-- `cleanSchema` is idempotent on every value it successfully produces. -/
theorem cleanSchema_idem : ∀ (j t : Json), cleanSchema j = some t →
    cleanSchema t = some t
  | .null, t, h => by
    simp only [cleanSchema, Option.some.injEq] at h
    subst h; rfl
  | .bool b, t, h => by
    simp only [cleanSchema, Option.some.injEq] at h
    subst h; rfl
  | .num n, t, h => by
    simp only [cleanSchema, Option.some.injEq] at h
    subst h; rfl
  | .str s, t, h => by
    simp only [cleanSchema, Option.some.injEq] at h
    subst h; rfl
  | .arr xs, t, h => by
    simp only [cleanSchema] at h
    cases hys : cleanList xs with
    | none => rw [hys] at h; exact absurd h (by simp)
    | some ys =>
      rw [hys] at h
      simp only [Option.some.injEq] at h
      subst h
      have := cleanList_idem xs ys hys
      simp only [cleanSchema]
      rw [this]
  | .obj fields, t, h => by
    simp only [cleanSchema] at h
    cases hcf : cleanFields fields with
    | none => rw [hcf] at h; exact absurd h (by simp)
    | some cs =>
      rw [hcf] at h
      dsimp only at h
      cases hfix : fixRequired cs with
      | none => rw [hfix] at h; exact absurd h (by simp)
      | some cs' =>
        rw [hfix] at h
        simp only [Option.some.injEq] at h
        subst h
        have hcs : cleanFields cs = some cs := cleanFields_idem fields cs hcf
        have hcs' : cleanFields cs' = some cs' := by
          rcases fixRequired_shape cs cs' hfix with h1 | h2 | h3
          · rw [h1]; exact hcs
          · rw [h2]; exact cleanFields_eraseKey_self cs "required" hcs
          · obtain ⟨props, reqs, reqs', hreq, _, hfil, hset⟩ := h3
            rw [hset]
            apply cleanFields_setKey_self cs "required" (.arr reqs') hcs
            have hmem := lookupField_mem cs "required" (.arr reqs) hreq
            have harr : cleanSchema (.arr reqs) = some (.arr reqs) :=
              (cleanFields_self_pointwise cs hcs _ hmem).2
            have hlist : cleanList reqs = some reqs := by
              have harr2 := harr
              simp only [cleanSchema] at harr2
              cases hl : cleanList reqs with
              | none =>
                rw [hl] at harr2
                exact absurd harr2 (by simp)
              | some l' =>
                rw [hl] at harr2
                dsimp only at harr2
                simp only [Option.some.injEq, Json.arr.injEq] at harr2
                rw [harr2]
            have hlist' : cleanList reqs' = some reqs' :=
              cleanList_self_of reqs'
                (fun r hr => cleanList_self_pointwise reqs hlist r
                  (filterReq_subset reqs props reqs' hfil r hr))
            simp only [cleanSchema]
            rw [hlist']
        have hfix' : fixRequired cs' = some cs' := fixRequired_out_self cs cs' hfix
        simp only [cleanSchema]
        rw [hcs']
        dsimp only
        rw [hfix']

theorem cleanList_idem : ∀ (xs ys : List Json), cleanList xs = some ys →
    cleanList ys = some ys
  | [], ys, h => by
    simp only [cleanList, Option.some.injEq] at h
    subst h; rfl
  | x :: xs, ys, h => by
    simp only [cleanList] at h
    cases hy : cleanSchema x with
    | none => rw [hy] at h; exact absurd h (by simp)
    | some y =>
      rw [hy] at h
      dsimp only at h
      cases hys : cleanList xs with
      | none => rw [hys] at h; exact absurd h (by simp)
      | some ys' =>
        rw [hys] at h
        simp only [Option.some.injEq] at h
        subst h
        simp only [cleanList]
        rw [cleanSchema_idem x y hy]
        dsimp only
        rw [cleanList_idem xs ys' hys]

theorem cleanFields_idem : ∀ (fs cs : List (String × Json)), cleanFields fs = some cs →
    cleanFields cs = some cs
  | [], cs, h => by
    simp only [cleanFields, Option.some.injEq] at h
    subst h; rfl
  | (k, v) :: rest, cs, h => by
    simp only [cleanFields] at h
    by_cases hal : allowedKeys.contains k
    · rw [if_pos hal] at h
      cases hv : cleanSchema v with
      | none => rw [hv] at h; exact absurd h (by simp)
      | some v' =>
        rw [hv] at h
        dsimp only at h
        cases hrest : cleanFields rest with
        | none => rw [hrest] at h; exact absurd h (by simp)
        | some rest' =>
          rw [hrest] at h
          simp only [Option.some.injEq] at h
          subst h
          simp only [cleanFields, if_pos hal]
          rw [cleanSchema_idem v v' hv]
          dsimp only
          rw [cleanFields_idem rest rest' hrest]
    · rw [if_neg hal] at h
      exact cleanFields_idem rest cs h
end

/-- C4: `cleanSchema` only returns values whose every object node keeps only
allow-listed keys and satisfies the `required` discipline (first conjunct, via
the recursive invariant `cleanInv`); whenever the invariant holds, a present
`required` list is non-empty and references only own keys of the cleaned
`properties` map (second conjunct), and `required` is absent whenever
`properties` is absent or an empty map (third conjunct); in particular a
declaration with `required: ["x"]` but no `properties.x` is cleaned to one
with no `required` field (fourth conjunct, Scenario D). -/
theorem claim_C4_cleanSchema_required_invariant :
    (∀ j t, cleanSchema j = some t → cleanInv t = true) ∧
    (∀ fields rs props, reqInv fields = true →
      lookupField fields "required" = some (.arr rs) →
      lookupField fields "properties" = some (.obj props) →
      rs ≠ [] ∧ ∀ r ∈ rs, (props.any (fun p => p.1 == jsKeyString r)) = true) ∧
    (∀ fields, reqInv fields = true →
      (lookupField fields "properties" = none ∨
       lookupField fields "properties" = some (.obj [])) →
      lookupField fields "required" = none) ∧
    cleanSchema (.obj [("type", .str "object"), ("required", .arr [.str "x"])]) =
      some (.obj [("type", .str "object")]) := by
  refine ⟨cleanSchema_inv, ?_, ?_, rfl⟩
  · intro fields rs props hinv hreq hprops
    unfold reqInv at hinv
    rw [hreq, hprops] at hinv
    dsimp only at hinv
    simp only [Bool.and_eq_true] at hinv
    obtain ⟨hne, _, hall⟩ := hinv
    constructor
    · intro hnil
      subst hnil
      simp at hne
    · intro r hr
      have := (List.all_eq_true.mp hall) r hr
      simpa [inOp] using this
  · intro fields hinv hcase
    cases hreqv : lookupField fields "required" with
    | none => rfl
    | some v =>
      exfalso
      unfold reqInv at hinv
      rw [hreqv] at hinv
      cases v with
      | arr rs =>
        dsimp only at hinv
        rcases hcase with hc | hc
        · rw [hc] at hinv
          simp at hinv
        · rw [hc] at hinv
          simp [keyCount] at hinv
      | null => simp at hinv
      | bool b => simp at hinv
      | num n => simp at hinv
      | str s => simp at hinv
      | obj fs => simp at hinv

/-- Witness for C4: the invariant conjuncts instantiated at concrete schemas
(the Scenario D input for the first, a one-property schema for the second, and
the empty declaration for the third). -/
theorem claim_C4_witness :
    cleanInv (.obj [("type", .str "object")]) = true ∧
    ([Json.str "a"] ≠ [] ∧ ∀ r ∈ [Json.str "a"],
      (([("a", Json.null)] : List (String × Json)).any
        (fun p => p.1 == jsKeyString r)) = true) ∧
    lookupField [] "required" = none :=
  ⟨claim_C4_cleanSchema_required_invariant.1
      (.obj [("type", .str "object"), ("required", .arr [.str "x"])]) _ rfl,
   claim_C4_cleanSchema_required_invariant.2.1
      [("properties", .obj [("a", .null)]), ("required", .arr [.str "a"])]
      [.str "a"] [("a", .null)] rfl rfl rfl,
   claim_C4_cleanSchema_required_invariant.2.2.1 [] rfl (Or.inl rfl)⟩

/-- C10: the schema cleaning function is idempotent: cleaning an
already-cleaned declaration changes nothing (with a thrown `TypeError`
propagating through `Option.bind`). -/
theorem claim_C10_cleanSchema_idempotent :
    ∀ s : Json, (cleanSchema s).bind cleanSchema = cleanSchema s := by
  intro s
  cases h : cleanSchema s with
  | none => rfl
  | some t => simpa using cleanSchema_idem s t h

theorem forall₂_append_singleton {α β : Type} {R : α → β → Prop}
    {l₁ : List α} {l₂ : List β} {a : α} {b : β}
    (h : List.Forall₂ R l₁ l₂) (hab : R a b) :
    List.Forall₂ R (l₁ ++ [a]) (l₂ ++ [b]) := by
  induction h with
  | nil => exact List.Forall₂.cons hab List.Forall₂.nil
  | cons h₁ _ ih => exact List.Forall₂.cons h₁ ih

theorem runLoopAux_spec (maxChunks maxChunkSize : Nat) (model : Nat → ModelResponse)
    (handler : Nat → FunctionCall → HandlerOutcome) :
    ∀ (n toolCalls : Nat) (resp : ModelResponse) (executed : List FunctionCall)
      (seen : List ModelResponse) (folded : List (List Char)),
      n = maxChunks - toolCalls → toolCalls ≤ maxChunks →
      executed.length = toolCalls →
      List.Forall₂ (fun fc r => r.functionCalls.head? = some fc) executed seen →
      ((runLoopAux maxChunks maxChunkSize model handler toolCalls resp executed seen
          folded).toolCalls ≤ maxChunks ∧
       ((runLoopAux maxChunks maxChunkSize model handler toolCalls resp executed seen
          folded).finalResponse.functionCalls = [] ∨
        (runLoopAux maxChunks maxChunkSize model handler toolCalls resp executed seen
          folded).toolCalls = maxChunks) ∧
       (runLoopAux maxChunks maxChunkSize model handler toolCalls resp executed seen
          folded).executed.length =
         (runLoopAux maxChunks maxChunkSize model handler toolCalls resp executed seen
          folded).toolCalls ∧
       List.Forall₂ (fun fc r => r.functionCalls.head? = some fc)
         (runLoopAux maxChunks maxChunkSize model handler toolCalls resp executed seen
           folded).executed
         (runLoopAux maxChunks maxChunkSize model handler toolCalls resp executed seen
           folded).seen) := by
  intro n
  induction n with
  | zero =>
    intro toolCalls resp executed seen folded hn hle hexe hF
    have heq : toolCalls = maxChunks := by omega
    unfold runLoopAux
    cases hfc : resp.functionCalls with
    | nil =>
      dsimp only
      exact ⟨hle, Or.inl hfc, hexe, hF⟩
    | cons fc rest =>
      dsimp only
      rw [dif_neg (by omega)]
      exact ⟨hle, Or.inr heq, hexe, hF⟩
  | succ n ih =>
    intro toolCalls resp executed seen folded hn hle hexe hF
    unfold runLoopAux
    cases hfc : resp.functionCalls with
    | nil =>
      dsimp only
      exact ⟨hle, Or.inl hfc, hexe, hF⟩
    | cons fc rest =>
      dsimp only
      by_cases hlt : toolCalls < maxChunks
      · rw [dif_pos hlt]
        apply ih (toolCalls + 1) (model toolCalls) (executed ++ [fc]) (seen ++ [resp])
        · omega
        · omega
        · simp [hexe]
        · exact forall₂_append_singleton hF (by rw [hfc]; rfl)
      · rw [dif_neg hlt]
        exact ⟨hle, Or.inr (by omega), hexe, hF⟩

theorem runLoopAux_handler_indep (maxChunks maxChunkSize maxChunkSize' : Nat)
    (model : Nat → ModelResponse)
    (handler handler' : Nat → FunctionCall → HandlerOutcome) :
    ∀ (n toolCalls : Nat) (resp : ModelResponse) (executed : List FunctionCall)
      (seen : List ModelResponse) (folded folded' : List (List Char)),
      n = maxChunks - toolCalls →
      ((runLoopAux maxChunks maxChunkSize model handler toolCalls resp executed seen
          folded).toolCalls =
         (runLoopAux maxChunks maxChunkSize' model handler' toolCalls resp executed seen
          folded').toolCalls ∧
       (runLoopAux maxChunks maxChunkSize model handler toolCalls resp executed seen
          folded).executed =
         (runLoopAux maxChunks maxChunkSize' model handler' toolCalls resp executed seen
          folded').executed ∧
       (runLoopAux maxChunks maxChunkSize model handler toolCalls resp executed seen
          folded).seen =
         (runLoopAux maxChunks maxChunkSize' model handler' toolCalls resp executed seen
          folded').seen ∧
       (runLoopAux maxChunks maxChunkSize model handler toolCalls resp executed seen
          folded).finalResponse =
         (runLoopAux maxChunks maxChunkSize' model handler' toolCalls resp executed seen
          folded').finalResponse) := by
  intro n
  induction n with
  | zero =>
    intro toolCalls resp executed seen folded folded' hn
    unfold runLoopAux
    cases hfc : resp.functionCalls with
    | nil =>
      dsimp only
      exact ⟨rfl, rfl, rfl, rfl⟩
    | cons fc rest =>
      dsimp only
      by_cases hlt : toolCalls < maxChunks
      · exact absurd hlt (by omega)
      · rw [dif_neg hlt, dif_neg hlt]
        exact ⟨rfl, rfl, rfl, rfl⟩
  | succ n ih =>
    intro toolCalls resp executed seen folded folded' hn
    unfold runLoopAux
    cases hfc : resp.functionCalls with
    | nil =>
      dsimp only
      exact ⟨rfl, rfl, rfl, rfl⟩
    | cons fc rest =>
      dsimp only
      by_cases hlt : toolCalls < maxChunks
      · rw [dif_pos hlt, dif_pos hlt]
        exact ih (toolCalls + 1) (model toolCalls) (executed ++ [fc]) (seen ++ [resp])
          _ _ (by omega)
      · rw [dif_neg hlt, dif_neg hlt]
        exact ⟨rfl, rfl, rfl, rfl⟩

/-- C1: for every model-response sequence, every tool handler and every
initial response, the loop performs at most `maxChunks` tool-use iterations —
instantiated by `MAX_CHUNKS = 5` on the chat route and `MAX_CHUNKS_insight =
3` on the insight route; it stops with no pending function calls or with the
bound reached; and the returned result text is the final model text, replaced
by the fixed fallback string exactly when that text trims to empty. -/
theorem claim_C1_loop_bound (maxChunks maxChunkSize : Nat)
    (model : Nat → ModelResponse) (handler : Nat → FunctionCall → HandlerOutcome)
    (resp0 : ModelResponse) :
    (runLoop maxChunks maxChunkSize model handler resp0).toolCalls ≤ maxChunks ∧
    ((runLoop maxChunks maxChunkSize model handler resp0).finalResponse.functionCalls
        = [] ∨
     (runLoop maxChunks maxChunkSize model handler resp0).toolCalls = maxChunks) ∧
    loopResultText (runLoop maxChunks maxChunkSize model handler resp0) =
      (if (runLoop maxChunks maxChunkSize model handler resp0).finalResponse.text.trim
          ≠ "" then
        (runLoop maxChunks maxChunkSize model handler resp0).finalResponse.text
       else fallbackText) ∧
    MAX_CHUNKS = 5 ∧ MAX_CHUNKS_insight = 3 := by
  have h := runLoopAux_spec maxChunks maxChunkSize model handler
    (maxChunks - 0) 0 resp0 [] [] [] rfl (Nat.zero_le _) rfl List.Forall₂.nil
  exact ⟨h.1, h.2.1, rfl, rfl, rfl⟩

/-- C3: in every loop iteration exactly the first requested call of that
iteration's model response is dispatched — the executed-call trace is
pointwise the head of the requested-calls list of the consumed responses, one
executed call per iteration (trace length equals the iteration count), and
the remaining requested calls of the same response are never dispatched from
it. -/
theorem claim_C3_first_call_only (maxChunks maxChunkSize : Nat)
    (model : Nat → ModelResponse) (handler : Nat → FunctionCall → HandlerOutcome)
    (resp0 : ModelResponse) :
    List.Forall₂ (fun fc resp => resp.functionCalls.head? = some fc)
      (runLoop maxChunks maxChunkSize model handler resp0).executed
      (runLoop maxChunks maxChunkSize model handler resp0).seen ∧
    (runLoop maxChunks maxChunkSize model handler resp0).executed.length =
      (runLoop maxChunks maxChunkSize model handler resp0).toolCalls := by
  have h := runLoopAux_spec maxChunks maxChunkSize model handler
    (maxChunks - 0) 0 resp0 [] [] [] rfl (Nat.zero_le _) rfl List.Forall₂.nil
  exact ⟨h.2.2.2, h.2.2.1⟩

/-- C5: a thrown handler fault is replaced at the dispatch boundary by a
ToolResult whose single text part is the fixed non-technical message; the
replacement does not depend on the fault detail, so the detail never reaches
the model-facing text; and the loop's control flow — iteration count,
dispatched calls, consumed responses and final response — does not depend on
the handler's outcomes at all, so a tool fault never terminates the request:
the loop continues exactly as it would have. -/
theorem claim_C5_dispatch_boundary :
    (∀ detail, catchToolError (.exn detail) = ⟨[⟨systemErrorText⟩]⟩) ∧
    (∀ d₁ d₂, catchToolError (.exn d₁) = catchToolError (.exn d₂)) ∧
    (∀ maxChunks maxChunkSize maxChunkSize' model handler handler' resp0,
      (runLoop maxChunks maxChunkSize model handler resp0).toolCalls =
        (runLoop maxChunks maxChunkSize' model handler' resp0).toolCalls ∧
      (runLoop maxChunks maxChunkSize model handler resp0).executed =
        (runLoop maxChunks maxChunkSize' model handler' resp0).executed ∧
      (runLoop maxChunks maxChunkSize model handler resp0).seen =
        (runLoop maxChunks maxChunkSize' model handler' resp0).seen ∧
      (runLoop maxChunks maxChunkSize model handler resp0).finalResponse =
        (runLoop maxChunks maxChunkSize' model handler' resp0).finalResponse) := by
  refine ⟨fun _ => rfl, fun _ _ => rfl, ?_⟩
  intro maxChunks maxChunkSize maxChunkSize' model handler handler' resp0
  exact runLoopAux_handler_indep maxChunks maxChunkSize maxChunkSize' model
    handler handler' (maxChunks - 0) 0 resp0 [] [] [] [] rfl

theorem foldChunk_eq_of_le (maxSize : Nat) (raw : List Char)
    (h : raw.length ≤ maxSize) : foldChunk maxSize raw = raw := by
  unfold foldChunk
  rw [if_neg (by omega)]
  exact List.take_of_length_le h

theorem foldChunk_spec_of_gt (maxSize : Nat) (raw : List Char)
    (h : maxSize < raw.length) :
    (foldChunk maxSize raw).length = maxSize + truncationMarker.length ∧
    truncationMarker.IsSuffix (foldChunk maxSize raw) := by
  unfold foldChunk
  rw [if_pos (by omega)]
  constructor
  · simp only [List.length_append, List.length_take]
    omega
  · exact List.suffix_append _ _

/-- C2 is false as stated: when the raw text exceeds the budget, the folded
text is the clipped budget-sized prefix PLUS the appended marker, so its
length exceeds `MAX_CHUNK_SIZE` — here a raw text of 5001 characters folds to
5047 characters. -/
theorem claim_C2_counterexample :
    ¬ (foldChunk MAX_CHUNK_SIZE (List.replicate (MAX_CHUNK_SIZE + 1) 'a')).length ≤
        MAX_CHUNK_SIZE := by
  have hlen : (List.replicate (MAX_CHUNK_SIZE + 1) 'a').length = MAX_CHUNK_SIZE + 1 :=
    List.length_replicate _ _
  have h := (foldChunk_spec_of_gt MAX_CHUNK_SIZE
    (List.replicate (MAX_CHUNK_SIZE + 1) 'a') (by rw [hlen]; omega)).1
  rw [h]
  have hm : truncationMarker.length = 47 := rfl
  omega

/-- C2 (amended): a raw text within the budget is folded back unchanged; a
longer raw text is clipped to exactly the budget and the truncation marker is
appended, so the folded text ends with the marker and its length is exactly
the budget plus the marker length (47), the folded text therefore never
exceeding the budget plus the marker length rather than the budget itself. -/
theorem claim_C2_truncation_amended (maxChunkSize : Nat) (raw : List Char) :
    (raw.length ≤ maxChunkSize → foldChunk maxChunkSize raw = raw) ∧
    (maxChunkSize < raw.length →
      (foldChunk maxChunkSize raw).length = maxChunkSize + truncationMarker.length ∧
      truncationMarker.IsSuffix (foldChunk maxChunkSize raw)) ∧
    (foldChunk maxChunkSize raw).length ≤ maxChunkSize + truncationMarker.length := by
  refine ⟨foldChunk_eq_of_le maxChunkSize raw, foldChunk_spec_of_gt maxChunkSize raw, ?_⟩
  by_cases h : raw.length ≤ maxChunkSize
  · rw [foldChunk_eq_of_le maxChunkSize raw h]
    omega
  · rw [(foldChunk_spec_of_gt maxChunkSize raw (by omega)).1]

/-- Witness for C2 (amended): the two regimes at a budget of 3 and 2 on the
three-character raw text. -/
theorem claim_C2_witness :
    foldChunk 3 ['a', 'b', 'c'] = ['a', 'b', 'c'] ∧
    (foldChunk 2 ['a', 'b', 'c']).length = 2 + truncationMarker.length :=
  ⟨(claim_C2_truncation_amended 3 ['a', 'b', 'c']).1 (by decide),
   ((claim_C2_truncation_amended 2 ['a', 'b', 'c']).2.1 (by decide)).1⟩

/-- C8: a requested `describe_table` call with an absent argument bag, or a
bag without the `table_name` key, is forwarded to the remote server with the
non-empty default bag `table_name = patients`; a `describe_table` call that
already carries `table_name`, and every other non-local call, forwards its
bag unchanged (an absent bag forwarding as the empty bag, `args || ` empty). -/
theorem claim_C8_describe_table_default :
    (routeCall ⟨"describe_table", none⟩ =
      .remote "describe_table" [("table_name", Json.str "patients")]) ∧
    (∀ bag, bagHasKey bag "table_name" = false →
      routeCall ⟨"describe_table", some bag⟩ =
        .remote "describe_table" [("table_name", Json.str "patients")]) ∧
    (∀ bag, bagHasKey bag "table_name" = true →
      routeCall ⟨"describe_table", some bag⟩ = .remote "describe_table" bag) ∧
    ([("table_name", Json.str "patients")] ≠ ([] : List (String × Json))) ∧
    (∀ name bag, customToolNames.contains name = false → name ≠ "describe_table" →
      routeCall ⟨name, some bag⟩ = .remote name bag) ∧
    (∀ name, customToolNames.contains name = false → name ≠ "describe_table" →
      routeCall ⟨name, none⟩ = .remote name []) := by
  refine ⟨rfl, ?_, ?_, by simp, ?_, ?_⟩
  · intro bag h
    simp [routeCall, forwardedArgs, customToolNames, h]
  · intro bag h
    simp [routeCall, forwardedArgs, customToolNames, h]
  · intro name bag hlocal hname
    have h2 : name ∉ customToolNames := by simpa using hlocal
    simp [routeCall, forwardedArgs, hname, h2]
  · intro name hlocal hname
    have h2 : name ∉ customToolNames := by simpa using hlocal
    simp [routeCall, forwardedArgs, hname, h2]

/-- Witness for C8: the default applied to an absent key and to a bag that
already names a table, and verbatim forwarding of other remote calls. -/
theorem claim_C8_witness :
    routeCall ⟨"describe_table", some [("q", Json.str "x")]⟩ =
      .remote "describe_table" [("table_name", Json.str "patients")] ∧
    routeCall ⟨"describe_table", some [("table_name", Json.str "visits")]⟩ =
      .remote "describe_table" [("table_name", Json.str "visits")] ∧
    routeCall ⟨"read_query", some [("query", Json.str "SELECT 1")]⟩ =
      .remote "read_query" [("query", Json.str "SELECT 1")] ∧
    routeCall ⟨"list_tables", none⟩ = .remote "list_tables" [] :=
  ⟨claim_C8_describe_table_default.2.1 [("q", Json.str "x")] (by decide),
   claim_C8_describe_table_default.2.2.1 [("table_name", Json.str "visits")] (by decide),
   claim_C8_describe_table_default.2.2.2.2.1 "read_query"
     [("query", Json.str "SELECT 1")] (by decide) (by decide),
   claim_C8_describe_table_default.2.2.2.2.2 "list_tables" (by decide) (by decide)⟩

/-- C6 is false as stated: when `full_name` is among the absent mandatory
fields, the handler returns before computing the full missing list, so the
reply text is exactly `missing: full_name` and does not list the other absent
mandatory field `phone_number`; no row is inserted. -/
theorem claim_C6_counterexample :
    register_patient_tool [] c6args = some (.missingFullName, []) ∧
    regReplyText RegReply.missingFullName = "missing: full_name" ∧
    specRegisterMissing c6args = ["full_name", "phone_number"] ∧
    regReplyText RegReply.missingFullName ≠
      "missing: " ++ String.intercalate ", " (specRegisterMissing c6args) := by
  refine ⟨rfl, rfl, rfl, ?_⟩
  decide

/-- C6 (amended): when the alias normalization throws (a truthy non-string
gender hits `(args.gender as string).toLowerCase()`), the handler raises
before any missing check and the dispatch boundary substitutes the
system-error text instead of a `missing:` reply.  Otherwise, when `full_name`
(after aliasing) is absent, the reply text is exactly `missing: full_name`,
short-circuiting the other fields; and when `full_name` is present but any
entry of the handler's own required set — `ic_number or passport_number`
(when both identifiers are absent), then `phone_number`, `gender`, `address`
and `allergies` (demanded even though declared optional) — is absent, the
reply text is `missing: ` followed by exactly those entries, comma-separated,
in that order.  In every such case the store is unchanged: no row is
inserted. -/
theorem claim_C6_register_missing_amended (store : List RegPatientRow)
    (args : List (String × Json)) :
    (normalizeRegisterArgs args = none → register_patient_tool store args = none) ∧
    (∀ nargs, normalizeRegisterArgs args = some nargs →
      (optTruthy (regFullName args) = false →
        register_patient_tool store args = some (.missingFullName, store) ∧
        regReplyText RegReply.missingFullName = "missing: full_name") ∧
      (optTruthy (regFullName args) = true → registerMissingList nargs ≠ [] →
        register_patient_tool store args =
          some (.missing (registerMissingList nargs), store) ∧
        regReplyText (RegReply.missing (registerMissingList nargs)) =
          "missing: " ++ String.intercalate ", " (registerMissingList nargs))) := by
  constructor
  · intro h
    simp [register_patient_tool, h]
  · intro nargs hn
    constructor
    · intro h
      refine ⟨?_, rfl⟩
      simp [register_patient_tool, hn, h]
    · intro h1 h2
      have h3 : (registerMissingList nargs).isEmpty = false := by
        cases hmt : registerMissingList nargs with
        | nil => exact absurd hmt h2
        | cons a l => rfl
      refine ⟨?_, rfl⟩
      simp [register_patient_tool, hn, h1, h3]

/-- Witness for C6 (amended): the short-circuit on the `c6args` bag, the full
missing list when only `full_name` and an identifier are supplied, and the
thrown `TypeError` on a truthy numeric gender. -/
theorem claim_C6_witness :
    register_patient_tool [] c6args = some (.missingFullName, []) ∧
    register_patient_tool []
        [("full_name", Json.str "Ali"), ("ic_number", Json.str "900101011234")] =
      some (.missing ["phone_number", "gender", "address", "allergies"], []) ∧
    register_patient_tool [] [("gender", Json.num 1)] = none :=
  ⟨(((claim_C6_register_missing_amended [] c6args).2 _ rfl).1 (by decide)).1,
   (((claim_C6_register_missing_amended []
        [("full_name", Json.str "Ali"), ("ic_number", Json.str "900101011234")]).2
      _ rfl).2 (by decide) (by decide)).1,
   (claim_C6_register_missing_amended [] [("gender", Json.num 1)]).1 rfl⟩

theorem firstOpenIdx_get : ∀ (cs : List Char) (i : Nat), firstOpenIdx cs = some i →
    cs[i]? = some '\x7b' := by
  intro cs
  induction cs with
  | nil => intro i h; simp [firstOpenIdx] at h
  | cons c rest ih =>
    intro i h
    simp only [firstOpenIdx] at h
    by_cases hc : c = '\x7b'
    · rw [if_pos hc] at h
      simp only [Option.some.injEq] at h
      subst h
      simp [hc]
    · rw [if_neg hc] at h
      cases hrec : firstOpenIdx rest with
      | none => rw [hrec] at h; simp at h
      | some i' =>
        rw [hrec] at h
        simp only [Option.map_some', Option.some.injEq] at h
        subst h
        simpa using ih i' hrec

theorem lastCloseIdx_get : ∀ (cs : List Char) (j : Nat), lastCloseIdx cs = some j →
    cs[j]? = some '\x7d' ∧ j < cs.length := by
  intro cs
  induction cs with
  | nil => intro j h; simp [lastCloseIdx] at h
  | cons c rest ih =>
    intro j h
    simp only [lastCloseIdx] at h
    cases hrec : lastCloseIdx rest with
    | some j' =>
      rw [hrec] at h
      simp only [Option.some.injEq] at h
      subst h
      have h2 := ih j' hrec
      refine ⟨by simpa using h2.1, ?_⟩
      have := h2.2
      simp only [List.length_cons]
      omega
    | none =>
      rw [hrec] at h
      by_cases hc : c = '\x7d'
      · rw [if_pos hc] at h
        simp only [Option.some.injEq] at h
        subst h
        simp [hc]
      · rw [if_neg hc] at h
        simp at h

theorem braceMatch_some (cs s : List Char) (h : braceMatch cs = some s) :
    s.head? = some '\x7b' ∧ s.getLast? = some '\x7d' ∧
    ∃ pre post, pre ++ s ++ post = cs := by
  unfold braceMatch at h
  cases hi : firstOpenIdx cs with
  | none => rw [hi] at h; simp at h
  | some i =>
    rw [hi] at h
    cases hj : lastCloseIdx cs with
    | none => rw [hj] at h; simp at h
    | some j =>
      rw [hj] at h
      dsimp only at h
      by_cases hij : i < j
      · rw [if_pos hij] at h
        simp only [Option.some.injEq] at h
        subst h
        obtain ⟨hjc, hjlen⟩ := lastCloseIdx_get cs j hj
        have hic := firstOpenIdx_get cs i hi
        have hslen : ((cs.drop i).take (j - i + 1)).length = j - i + 1 := by
          simp only [List.length_take, List.length_drop]
          omega
        refine ⟨?_, ?_, ?_⟩
        · rw [List.head?_take]
          simp only [List.head?_drop]
          rw [if_neg (by omega)]
          exact hic
        · rw [List.getLast?_eq_getElem?, hslen]
          simp only [Nat.add_sub_cancel]
          rw [List.getElem?_take_of_lt (by omega), List.getElem?_drop]
          have : i + (j - i) = j := by omega
          rw [this]
          exact hjc
        · refine ⟨cs.take i, (cs.drop i).drop (j - i + 1), ?_⟩
          rw [List.append_assoc, List.take_append_drop, List.take_append_drop]
      · rw [if_neg hij] at h
        simp at h

/-- C7 is false as stated: the regex extraction takes the maximal span from
the first opening brace to the LAST closing brace of the whole text, not the
first well-formed payload — on a result whose prose carries a stray closing
brace after the payload, the two differ (and parsing the maximal span then
fails). -/
theorem claim_C7_counterexample :
    braceMatch ("\x7b\"triage\":\"red\"\x7d \x7d".data) ≠
      specFirstPayload ("\x7b\"triage\":\"red\"\x7d \x7d".data) ∧
    specFirstPayload ("\x7b\"triage\":\"red\"\x7d \x7d".data) =
      some ("\x7b\"triage\":\"red\"\x7d".data) ∧
    braceMatch ("\x7b\"triage\":\"red\"\x7d \x7d".data) =
      some ("\x7b\"triage\":\"red\"\x7d \x7d".data) := by
  refine ⟨?_, by decide, by decide⟩
  decide

/-- C7 (amended): the loop's triage-signal extraction is exception-safe — a
parse failure, or a falsy parse result, leaves the extracted signal absent
and cannot raise (the extractor is a total function into `Option`); and the
regex isolation of `triage_tool` extracts the span from the first opening
brace to the last closing brace of the whole text — a brace-delimited infix
of the text — which coincides with the first well-formed payload only when no
closing brace follows that payload. -/
theorem claim_C7_triage_extraction_amended :
    (∀ parse t, parse t = none → extractTriageLevel parse t = none) ∧
    (∀ parse t j, parse t = some j → truthy j = false →
      extractTriageLevel parse t = none) ∧
    (∀ cs s, braceMatch cs = some s →
      s.head? = some '\x7b' ∧ s.getLast? = some '\x7d' ∧
      ∃ pre post, pre ++ s ++ post = cs) ∧
    (∀ cs i j, firstOpenIdx cs = some i → lastCloseIdx cs = some j → i < j →
      braceMatch cs = some ((cs.drop i).take (j - i + 1))) := by
  refine ⟨?_, ?_, braceMatch_some, ?_⟩
  · intro parse t h
    simp [extractTriageLevel, h]
  · intro parse t j h hj
    simp [extractTriageLevel, h, hj]
  · intro cs i j hi hj hij
    unfold braceMatch
    rw [hi, hj]
    dsimp only
    rw [if_pos hij]

/-- Witness for C7 (amended): a failing parse and a falsy parse result yield
no signal, and the brace span of a concrete text with surrounding prose. -/
theorem claim_C7_witness :
    extractTriageLevel (fun _ => none) "nonsense" = none ∧
    extractTriageLevel (fun _ => some (Json.bool false)) "false" = none ∧
    (("\x7bb\x7d".data).head? = some '\x7b' ∧
      ("\x7bb\x7d".data).getLast? = some '\x7d' ∧
      ∃ pre post, pre ++ "\x7bb\x7d".data ++ post = "a\x7bb\x7d".data) ∧
    braceMatch ("a\x7bb\x7d".data) =
      some ((("a\x7bb\x7d".data).drop 1).take 3) :=
  ⟨claim_C7_triage_extraction_amended.1 (fun _ => none) "nonsense" rfl,
   claim_C7_triage_extraction_amended.2.1 (fun _ => some (Json.bool false))
     "false" (Json.bool false) rfl rfl,
   claim_C7_triage_extraction_amended.2.2.1 ("a\x7bb\x7d".data) ("\x7bb\x7d".data)
     (by decide),
   claim_C7_triage_extraction_amended.2.2.2 ("a\x7bb\x7d".data) 1 3
     (by decide) (by decide) (by decide)⟩

theorem find?_map_inv {α : Type} (g : α → α) (q : α → Bool)
    (hq : ∀ r, q (g r) = q r) :
    ∀ (l : List α), (l.map g).find? q = (l.find? q).map g := by
  intro l
  induction l with
  | nil => rfl
  | cons r rest ih =>
    by_cases hqr : q r = true
    · have hgr : q (g r) = true := by rw [hq]; exact hqr
      rw [List.map_cons, List.find?_cons_of_pos _ hgr, List.find?_cons_of_pos _ hqr]
      rfl
    · have hgr : ¬ q (g r) = true := by rw [hq]; exact hqr
      rw [List.map_cons, List.find?_cons_of_neg _ hgr, List.find?_cons_of_neg _ hqr,
        ih]

/-- C9: invoking the lookup twice in a row with identical arguments and no
intervening registration yields the same found/not_found outcome, and neither
call inserts a patient row — both calls preserve the store's row identities
and length (only the matched row's `last_attended` is rewritten). -/
theorem claim_C9_search_idempotent (store : List PatientRec) (now now' : Nat)
    (inp : SearchInput) :
    searchStatus (search_tool ((search_tool store now inp).2) now' inp).1 =
      searchStatus (search_tool store now inp).1 ∧
    ((search_tool store now inp).2).map (fun r => r.id) = store.map (fun r => r.id) ∧
    ((search_tool ((search_tool store now inp).2) now' inp).2).map (fun r => r.id) =
      store.map (fun r => r.id) ∧
    ((search_tool store now inp).2).length = store.length := by
  by_cases hic : strTruthy inp.ic_number = true
  · cases hfind : store.find? (fun r => r.ic_number == inp.ic_number) with
    | none =>
      simp [search_tool, hic, hfind]
    | some p =>
      have hq : ∀ r : PatientRec,
          ((fun r => r.ic_number == inp.ic_number)
            (if r.id = p.id then { r with last_attended := now } else r)) =
          ((fun r => r.ic_number == inp.ic_number) r) := by
        intro r
        by_cases h : r.id = p.id <;> simp [h]
      have hmap := find?_map_inv
        (fun r => if r.id = p.id then { r with last_attended := now } else r)
        (fun r => r.ic_number == inp.ic_number) hq store
      rw [hfind] at hmap
      have hid : ∀ r : PatientRec,
          (if r.id = p.id then { r with last_attended := now } else r).id = r.id := by
        intro r
        by_cases h : r.id = p.id <;> simp [h]
      constructor
      · simp [search_tool, hic, hfind, hmap, searchStatus]
      refine ⟨?_, ?_, ?_⟩
      · simp only [search_tool, hic, if_true, hfind]
        try dsimp only
        rw [List.map_map]
        exact List.map_congr_left (fun r _ => hid r)
      · simp only [search_tool, hic, if_true, hfind, hmap, Option.map_some']
        try dsimp only
        rw [List.map_map, List.map_map]
        exact List.map_congr_left (fun r _ => by by_cases h : r.id = p.id <;> simp [h])
      · simp [search_tool, hic, hfind]
  · by_cases hpp : strTruthy inp.passport_number = true
    · cases hfind : store.find? (fun r => r.passport_number == inp.passport_number) with
      | none =>
        simp [search_tool, hic, hpp, hfind]
      | some p =>
        have hq : ∀ r : PatientRec,
            ((fun r => r.passport_number == inp.passport_number)
              (if r.id = p.id then { r with last_attended := now } else r)) =
            ((fun r => r.passport_number == inp.passport_number) r) := by
          intro r
          by_cases h : r.id = p.id <;> simp [h]
        have hmap := find?_map_inv
          (fun r => if r.id = p.id then { r with last_attended := now } else r)
          (fun r => r.passport_number == inp.passport_number) hq store
        rw [hfind] at hmap
        have hid : ∀ r : PatientRec,
            (if r.id = p.id then { r with last_attended := now } else r).id = r.id := by
          intro r
          by_cases h : r.id = p.id <;> simp [h]
        constructor
        · simp [search_tool, hic, hpp, hfind, hmap, searchStatus]
        refine ⟨?_, ?_, ?_⟩
        · simp only [search_tool, hic, hpp, if_true, if_false, hfind, Bool.false_eq_true]
          try dsimp only
          rw [List.map_map]
          exact List.map_congr_left (fun r _ => hid r)
        · simp only [search_tool, hic, hpp, if_true, if_false, hfind, hmap,
            Option.map_some', Bool.false_eq_true]
          try dsimp only
          rw [List.map_map, List.map_map]
          exact List.map_congr_left (fun r _ => by by_cases h : r.id = p.id <;> simp [h])
        · simp [search_tool, hic, hpp, hfind]
    · simp [search_tool, hic, hpp]

end Uhm
